import Mathlib

/-!
Verification development for the ibstract historical market data engine.

Shallow embedding of the core logic of `ibstract/utils.py` and
`ibstract/marketdata.py`:

* the duration normalizer `timedur_standardize`;
* the trading-calendar query `trading_days` (explicit-start branch);
* the `MarketDataBlock` merge semantics (`update` / `combine`, pandas
  `combine_first` followed by `fillna(-1)` and the int64 coercion);
* the cache gap planner `query_hist_data_split_req` (coarse one-year and
  fine one-day granularities) and the orchestrator path selection of
  `get_hist_data`.

Python strings are Lean `String`s, datetimes are either integers on a
single time axis or explicit calendar structures, pandas cells are
`Option ℤ` (`none` models NaN), and Python exceptions are explicit error
values.  All definitions are executable.
-/

/-- Python exception kinds raised by `utils.timedur_standardize`:
`IndexError` from `re.findall(..)[0]` on an input without digits,
the bare `Exception` for an invalid single-letter unit, and the
`TypeError` for an unmatched verbose unit. -/
inductive PyErr where
  | indexError
  | exceptionErr
  | typeError
  deriving DecidableEq

instance {ε α : Type} [DecidableEq ε] [DecidableEq α] : DecidableEq (Except ε α) := fun a b =>
  match a, b with
  | .ok x, .ok y => decidable_of_iff (x = y) (by simp)
  | .error e, .error f => decidable_of_iff (e = f) (by simp)
  | .ok _, .error _ => isFalse (by simp)
  | .error _, .ok _ => isFalse (by simp)

/-- Does `pat` occur at the head of `text`?  Helper for literal substring
search (the keys of the unit table contain no regex metacharacters, so
`re.findall(k, s)` is plain substring search). -/
def leadsWith : List Char → List Char → Bool
  | [], _ => true
  | _ :: _, [] => false
  | a :: as, b :: bs => a = b && leadsWith as bs

/-- Does `pat` occur anywhere inside `text` as a contiguous run?  Models a
successful `re.findall(pat, text)` for a literal pattern `pat`. -/
def containsRun (pat : List Char) : List Char → Bool
  | [] => pat.isEmpty
  | c :: rest => leadsWith pat (c :: rest) || containsRun pat rest

/-- First maximal run of decimal digits in the character list: models
`re.findall(r"\d+", s)[0]`, returning `none` when the list of matches is
empty (in which case the Python indexes an empty list and raises
`IndexError`). -/
def firstDigitRun : List Char → Option (List Char)
  | [] => none
  | c :: cs =>
    if c.isDigit then some (c :: cs.takeWhile Char.isDigit)
    else firstDigitRun cs

/-- The ordered verbose unit keyword table of `timedur_standardize`,
iterated in Python dict insertion order. -/
def unit_map : List (List Char × Char) :=
  [(("sec").toList, 's'), (("min").toList, 'm'), (("hour").toList, 'h'),
   (("hr").toList, 'h'), (("day").toList, 'd'), (("wk").toList, 'W'),
   (("week").toList, 'W'), (("mo").toList, 'M'), (("mon").toList, 'M'),
   (("yr").toList, 'Y'), (("year").toList, 'Y')]

/-- Embedding of `utils.timedur_standardize`: extract the first digit run
and all ASCII letters; a single letter is interpreted case-insensitively
(with upper-case output for week/month/year units, so a bare lower-case
`m` is minutes and `M` is months); otherwise the first verbose keyword of
`unit_map` found as a (case-sensitive) substring decides the unit. -/
def timedur_standardize (timedur : String) : Except PyErr String :=
  match firstDigitRun timedur.toList with
  | none => .error .indexError
  | some timedur_num =>
    match timedur.toList.filter Char.isAlpha with
    | [c] =>
      let u := c.toLower
      if u ∈ ['s', 'm', 'h', 'd', 'w', 'y'] then
        let unit := if c ∈ ['w', 'W', 'M', 'y', 'Y'] then u.toUpper else u
        .ok (String.mk (timedur_num ++ [unit]))
      else .error .exceptionErr
    | _ =>
      match (unit_map.find? (fun p => containsRun p.1 timedur.toList)).map Prod.snd with
      | some u => .ok (String.mk (timedur_num ++ [u]))
      | none => .error .typeError

/-- Does the input contain a decimal digit?  (`re.findall(r"\d+", s)`
is nonempty exactly when some character is a digit.) -/
def hasDigit (s : String) : Bool := s.toList.any Char.isDigit

/-- A unit is recognized by the code when either exactly one ASCII letter
occurs and it is (case-insensitively) one of s, m, h, d, w, y, or the
letter count differs from one and some verbose keyword of `unit_map`
occurs, case-sensitively, as a substring. -/
def code_recognized_unit (s : String) : Prop :=
  (∃ c, s.toList.filter Char.isAlpha = [c] ∧
    c.toLower ∈ (['s', 'm', 'h', 'd', 'w', 'y'] : List Char)) ∨
  ((s.toList.filter Char.isAlpha).length ≠ 1 ∧
    ∃ p ∈ unit_map, containsRun p.1 s.toList = true)

instance (s : String) : Decidable (code_recognized_unit s) := by
  unfold code_recognized_unit
  have : Decidable (∃ c, s.toList.filter Char.isAlpha = [c] ∧
      c.toLower ∈ (['s', 'm', 'h', 'd', 'w', 'y'] : List Char)) := by
    rcases hf : s.toList.filter Char.isAlpha with _ | ⟨c, rest⟩
    · exact isFalse (by rintro ⟨c, hc, -⟩; simp at hc)
    · rcases rest with _ | ⟨d, rest⟩
      · exact decidable_of_iff (c.toLower ∈ (['s', 'm', 'h', 'd', 'w', 'y'] : List Char))
          (by constructor
              · intro h; exact ⟨c, rfl, h⟩
              · rintro ⟨e, he, hmem⟩; cases he; exact hmem)
      · exact isFalse (by rintro ⟨e, he, -⟩; simp at he)
  exact instDecidableOr

/-- Modelled from the spec (§4.1 wording, for comparison with the code):
the fixed unit-keyword table is matched as a case-insensitive substring. -/
def spec_recognized_verbose (s : String) : Bool :=
  unit_map.any (fun p => containsRun p.1 (s.toList.map Char.toLower))

/-- Embedding of `bisect.bisect_left` specialized to the sorted
`NYSE_CAL` session list: the leftmost insertion point, which on a sorted
list is the number of entries strictly below the probe. -/
def bisect_left (cal : List ℤ) (x : ℤ) : ℕ :=
  (cal.takeWhile (fun d => d < x)).length

/-- Embedding of the explicit-start branch of `utils.trading_days`:
`NYSE_CAL[start_idx:end_idx]` where both indices come from
`bisect_left`.  Session timestamps and probe timestamps live on one
integer time axis (calendar entries are midnight instants). -/
def trading_days (cal : List ℤ) (time_end time_start : ℤ) : List ℤ :=
  (cal.take (bisect_left cal time_end)).drop (bisect_left cal time_start)

/-- Composite `MultiIndex` key of a `MarketDataBlock` row:
`(Symbol, DataType, BarSize, TickerTime)`, with the timestamp as an
instant on an integer time axis. -/
structure BarKey where
  symbol : String
  datatype : String
  barsize : String
  time : ℤ
  deriving DecidableEq

/-- One row of market data: the database columns of `_gen_sa_table`.
Each cell is `Option ℤ`; `none` models a pandas NaN/missing value.
(The source stores prices as floats; the merge logic is value-agnostic,
so integer-valued cells lose no generality.) -/
structure BarRow where
  opening : Option ℤ
  high : Option ℤ
  low : Option ℤ
  closing : Option ℤ
  volume : Option ℤ
  barcount : Option ℤ
  average : Option ℤ
  deriving DecidableEq

/-- The cells of a row, in schema order. -/
def BarRow.cells (r : BarRow) : List (Option ℤ) :=
  [r.opening, r.high, r.low, r.closing, r.volume, r.barcount, r.average]

/-- A `MarketDataBlock` internal dataframe: rows listed with their
composite keys (pandas keeps them sorted by the `MultiIndex`). -/
abbrev DataFrame := List (BarKey × BarRow)

/-- Lexicographic image of a key, giving the `MultiIndex` sort order of
`sort_index()`: by Symbol, then DataType, then BarSize, then TickerTime. -/
def BarKey.lex (k : BarKey) : Lex (List Char × Lex (List Char × Lex (List Char × ℤ))) :=
  toLex (k.symbol.toList, toLex (k.datatype.toList, toLex (k.barsize.toList, k.time)))

/-- The `MultiIndex` ordering on composite keys. -/
def BarKey.le (a b : BarKey) : Prop := a.lex ≤ b.lex

instance : DecidableRel BarKey.le := fun a b => by
  unfold BarKey.le
  infer_instance

instance : IsTrans BarKey BarKey.le := ⟨fun _ _ _ h1 h2 => le_trans h1 h2⟩

instance : IsTotal BarKey BarKey.le := ⟨fun a b => le_total a.lex b.lex⟩

instance : IsAntisymm BarKey BarKey.le :=
  ⟨fun a b h1 h2 => by
    have h : a.lex = b.lex := le_antisymm h1 h2
    unfold BarKey.lex at h
    have h' := toLex.injective h
    rw [Prod.ext_iff] at h'
    obtain ⟨h1, h2⟩ := h'
    have h2' := toLex.injective h2
    rw [Prod.ext_iff] at h2'
    obtain ⟨h3, h4⟩ := h2'
    have h4' := toLex.injective h4
    rw [Prod.ext_iff] at h4'
    obtain ⟨h5, h6⟩ := h4'
    cases a; cases b
    simp only [BarKey.mk.injEq]
    refine ⟨?_, ?_, ?_, h6⟩
    · exact String.ext (by simpa [String.toList] using h1)
    · exact String.ext (by simpa [String.toList] using h3)
    · exact String.ext (by simpa [String.toList] using h5)⟩

/-- Row ordering used by `sort_index()`: compare keys only. -/
def rowLe (p q : BarKey × BarRow) : Prop := BarKey.le p.1 q.1

instance : DecidableRel rowLe := fun p q => by
  unfold rowLe
  infer_instance

instance : IsTrans (BarKey × BarRow) rowLe :=
  ⟨fun p q r h1 h2 => IsTrans.trans (r := BarKey.le) p.1 q.1 r.1 h1 h2⟩

instance : IsTotal (BarKey × BarRow) rowLe := ⟨fun p q => IsTotal.total p.1 q.1⟩

/-- Embedding of `DataFrame.sort_index()`: stable sort of the rows by
their composite key. -/
def sortByKey (df : DataFrame) : DataFrame := List.insertionSort rowLe df

/-- Keys of the rows of a dataframe, in row order. -/
def keysOf (df : DataFrame) : List BarKey := df.map Prod.fst

/-- First row carrying a given key (pandas key-aligned access; unique
when the index has no duplicate keys). -/
def lookupRow (df : DataFrame) (k : BarKey) : Option BarRow :=
  match df with
  | [] => none
  | p :: rest => if p.1 = k then some p.2 else lookupRow rest k

/-- Cell-level `combine_first`: the incoming (caller) cell wins whenever
it is non-null, otherwise the existing cell is kept. -/
def mergeCell (cin cself : Option ℤ) : Option ℤ :=
  match cin with
  | some v => some v
  | none => cself

/-- Row-level `combine_first`, cell by cell. -/
def mergeRow (rin rself : BarRow) : BarRow :=
  ⟨mergeCell rin.opening rself.opening, mergeCell rin.high rself.high,
   mergeCell rin.low rself.low, mergeCell rin.closing rself.closing,
   mergeCell rin.volume rself.volume, mergeCell rin.barcount rself.barcount,
   mergeCell rin.average rself.average⟩

/-- Row produced by `combine_first` at one key of the union index: merge
when the key is present on both sides, else take the side holding it.
(The all-null fallback is unreachable: every key of the union index is
present on at least one side.) -/
def mergeAt (dfIn dfSelf : DataFrame) (k : BarKey) : BarRow :=
  match lookupRow dfIn k, lookupRow dfSelf k with
  | some ri, some rs => mergeRow ri rs
  | some ri, none => ri
  | none, some rs => rs
  | none, none => ⟨none, none, none, none, none, none, none⟩

/-- Embedding of `df_in.combine_first(self.df)` over unique-key frames:
the result is indexed by the sorted union of the two key sets and holds
the cell-wise merged rows, incoming values winning where non-null. -/
def combine_first (dfIn dfSelf : DataFrame) : DataFrame :=
  (List.insertionSort BarKey.le ((keysOf dfIn ++ keysOf dfSelf).dedup)).map
    (fun k => (k, mergeAt dfIn dfSelf k))

/-- The `fillna(-1)` step on one cell. -/
def fillCell (c : Option ℤ) : Option ℤ := some (c.getD (-1))

/-- The `fillna(-1)` step on one row. -/
def fillRow (r : BarRow) : BarRow :=
  ⟨fillCell r.opening, fillCell r.high, fillCell r.low, fillCell r.closing,
   fillCell r.volume, fillCell r.barcount, fillCell r.average⟩

/-- Embedding of `self.df.fillna(-1, inplace=True)` followed by the
`astype(np.int64)` coercion of the volume and barcount columns (an
identity here, since cell values are already integers). -/
def fillna (df : DataFrame) : DataFrame := df.map (fun p => (p.1, fillRow p.2))

/-- Embedding of `MarketDataBlock.update` on key-standardized input
rows: no-op on empty input; a plain `sort_index()` when the block is
empty, otherwise `combine_first` into the block; in both cases followed
by `fillna(-1)` and the int64 coercion. -/
def MarketDataBlock.update (blk df_in : DataFrame) : DataFrame :=
  if df_in = [] then blk
  else fillna (if blk = [] then sortByKey df_in else combine_first df_in blk)

/-- Embedding of `MarketDataBlock.combine`: `update` on the other
block's already-standardized frame. -/
def MarketDataBlock.combine (blk other : DataFrame) : DataFrame :=
  MarketDataBlock.update blk other

/-- No two rows share a composite key. -/
def KeyUnique (df : DataFrame) : Prop := (keysOf df).Nodup

instance (df : DataFrame) : Decidable (KeyUnique df) := by
  unfold KeyUnique
  exact List.nodupDecidable (keysOf df)

/-- A row without null cells. -/
def NoNullRow (r : BarRow) : Prop := ∀ c ∈ r.cells, c ≠ none

instance (r : BarRow) : Decidable (NoNullRow r) := by
  unfold NoNullRow
  infer_instance

/-- A dataframe without null cells, in any column of any row. -/
def NoNulls (df : DataFrame) : Prop := ∀ p ∈ df, NoNullRow p.2

instance (df : DataFrame) : Decidable (NoNulls df) := by
  unfold NoNulls
  infer_instance

/-- Keys appear in `MultiIndex` order. -/
def SortedKeys (df : DataFrame) : Prop := (keysOf df).Sorted BarKey.le

instance (df : DataFrame) : Decidable (SortedKeys df) := by
  unfold SortedKeys
  exact List.instDecidablePairwise (keysOf df)

/-- A zoned wall-clock instant as the Python code constructs them:
calendar fields plus microseconds (all side computations stay within one
exchange time zone, so the zone itself is left implicit). -/
structure PyDateTime where
  year : ℤ
  month : ℕ
  day : ℕ
  hour : ℕ
  minute : ℕ
  second : ℕ
  microsecond : ℕ
  deriving DecidableEq

/-- Embedding of `utils.tzmax` at `datetime(y, m, d)`: the day combined
with `datetime.max.time()`, i.e. 23:59:59.999999. -/
def tzmax (y : ℤ) (m d : ℕ) : PyDateTime := ⟨y, m, d, 23, 59, 59, 999999⟩

/-- Embedding of `xchg_tz.localize(datetime(y, m, d))`: midnight of the
given day. -/
def tzlocalize (y : ℤ) (m d : ℕ) : PyDateTime := ⟨y, m, d, 0, 0, 0, 0⟩

/-- Python `sorted(set(a) ^ set(b))`: ascending list of the elements in
exactly one of the two collections. -/
def sortedSymmDiff (a b : List ℤ) : List ℤ :=
  List.insertionSort (· ≤ ·)
    ((a.dedup.filter (fun x => decide (x ∉ b))) ++ (b.dedup.filter (fun x => decide (x ∉ a))))

/-- Coarse branch of `query_hist_data_split_req` (BarSize at daily or
coarser granularity): group the requirement and the cached rows by
calendar year, drop the current year from the cached side, and turn
every year of the sorted symmetric difference into a one-year download
tuple `("1y", last instant of the year)` together with its insert-limit
window `(first instant of the year, last instant of the NEXT year)` —
the upper bound uses `datetime(yr + 1, 12, 31)` in the source. -/
def split_req_coarse (trd_years blk_db_years : List ℤ) (now_year : ℤ) :
    List (String × PyDateTime) × List (PyDateTime × PyDateTime) :=
  let blk_db_years_set := blk_db_years.dedup.erase now_year
  let trd_year_gap := sortedSymmDiff trd_years blk_db_years_set
  (trd_year_gap.map (fun yr => ("1y", tzmax yr 12 31)),
   trd_year_gap.map (fun yr => (tzlocalize yr 1 1, tzmax (yr + 1) 12 31)))

/-- Grouping of consecutive gap indices, mirroring the accumulator loop
of the fine branch: a run `(first index, last index)` is emitted when
the next gap index is not the immediate successor (or at the end). -/
def groupRuns : List ℕ → ℕ → List (ℕ × ℕ)
  | [], _ => []
  | [idx], dur_days => [(idx + 1 - dur_days, idx)]
  | idx :: idx2 :: rest, dur_days =>
    if idx2 > idx + 1 then (idx + 1 - dur_days, idx) :: groupRuns (idx2 :: rest) 1
    else groupRuns (idx2 :: rest) (dur_days + 1)

/-- Fine branch of `query_hist_data_split_req` (BarSize below one day):
dates are day numbers on ℤ; a fine instant is a day paired with `false`
for its `tzmin` day-start or `true` for its `tzmax` day-end.  The sorted
symmetric difference of required and cached dates is mapped to positions
in the required session list (`trd_dates.index(d)` raises `ValueError`,
modelled as `none`, whenever a cached date is not a required session),
consecutive positions are grouped, and every run becomes one download
tuple `("<n>d", run end day-end)` with insert-limit
`(run start day-start, run end day-end)`. -/
def split_req_fine (trd_days blk_db_dates : List ℤ) :
    Option (List (String × (ℤ × Bool)) × List ((ℤ × Bool) × (ℤ × Bool))) :=
  let trd_day_gap := sortedSymmDiff trd_days blk_db_dates
  if trd_day_gap.all (fun d => decide (d ∈ trd_days)) then
    let trd_day_gap_idx := trd_day_gap.map (fun d => trd_days.indexOf d)
    let runs := groupRuns trd_day_gap_idx 1
    some (runs.map (fun r => (toString (r.2 + 1 - r.1) ++ "d", (trd_days.getD r.2 0, true))),
          runs.map (fun r => ((trd_days.getD r.1 0, false), (trd_days.getD r.2 0, true))))
  else none

/-- Failure modes of the planner: the `NotImplementedError` guard for
unsupported BarSize granularities, the `ValueError` of the fine branch,
and a propagated normalizer exception. -/
inductive SplitErr where
  | notImplementedError
  | valueError
  | pyExc : PyErr → SplitErr
  deriving DecidableEq

/-- Result of a successful split: either the coarse one-year plan or the
fine one-day plan. -/
inductive SplitPlan where
  | coarse : List (String × PyDateTime) × List (PyDateTime × PyDateTime) → SplitPlan
  | fine : List (String × (ℤ × Bool)) × List ((ℤ × Bool) × (ℤ × Bool)) → SplitPlan
  deriving DecidableEq

/-- Number of download sub-requests of a split plan. -/
def SplitPlan.numSubReqs : SplitPlan → ℕ
  | .coarse o => o.1.length
  | .fine o => o.1.length

/-- Embedding of `query_hist_data_split_req`: re-standardize the request
BarSize and raise `NotImplementedError` for seconds, week or month
granularity; otherwise branch on the final character of the (already
standardized) BarSize — daily-or-coarser takes the one-year coarse plan,
the rest the one-day fine plan.  The year sets, session list and cached
date list abstract the outputs of `hist_data_req_start_end` and of the
database query. -/
def query_hist_data_split_req (barsize : String) (trd_years blk_db_years : List ℤ)
    (now_year : ℤ) (trd_days blk_db_dates : List ℤ) : Except SplitErr SplitPlan :=
  match timedur_standardize barsize with
  | .error e => .error (.pyExc e)
  | .ok std =>
    if std.toList.getLast? ∈ [some 's', some 'W', some 'M'] then
      .error .notImplementedError
    else if barsize.toList.getLast? ∈ [some 'd', some 'W', some 'M', some 'Y'] then
      .ok (.coarse (split_req_coarse trd_years blk_db_years now_year))
    else
      match split_req_fine trd_days blk_db_dates with
      | some out => .ok (.fine out)
      | none => .error .valueError

/-- The two fetch strategies of `get_hist_data`. -/
inductive FetchPath where
  | direct
  | viaCache : SplitPlan → FetchPath
  deriving DecidableEq

/-- Embedding of the path selection of `get_hist_data`: without a MySQL
configuration, or for a seconds-granularity BarSize, the whole request is
fetched directly from the broker without caching; otherwise the cache
split planner runs and any exception it raises propagates to the
caller. -/
def get_hist_data (has_mysql : Bool) (barsize : String) (trd_years blk_db_years : List ℤ)
    (now_year : ℤ) (trd_days blk_db_dates : List ℤ) : Except SplitErr FetchPath :=
  if has_mysql = false then .ok .direct
  else
    match timedur_standardize barsize with
    | .error e => .error (.pyExc e)
    | .ok std =>
      if std.toList.getLast? = some 's' then .ok .direct
      else
        (query_hist_data_split_req barsize trd_years blk_db_years
          now_year trd_days blk_db_dates).map FetchPath.viaCache

/-- A `MarketDataBlock` instance as a Python object: `__init__` stores
the internal frame in the single instance attribute `df` (the `tz` and
`tzinfo` properties are frame metadata accessors and hold no frame). -/
structure MDBObject where
  df : DataFrame
  deriving DecidableEq

/-- Python attribute access for frame-valued attributes on a
`MarketDataBlock` instance: only `df` exists; any other name raises
`AttributeError`, modelled as `none`. -/
def MDBObject.getattrFrame (b : MDBObject) (name : String) : Option DataFrame :=
  if name = "df" then some b.df else none

/-- Elementwise frame comparison, the result a pandas `==` between two
aligned frames would produce (a frame of booleans, not a single
boolean). -/
def elementwiseEq (a b : DataFrame) : List Bool :=
  (a.zip b).map (fun p => p.1 = p.2)

/-- Embedding of `MarketDataBlock.__eq__`: the source evaluates
`self.df == mkt_data_block.data`, accessing the attribute `data` of the
other block; the result is `none` (an `AttributeError`) whenever that
attribute does not exist. -/
def MDBObject.eqOp (self other : MDBObject) : Option (List Bool) :=
  (other.getattrFrame ("data")).map (fun d => elementwiseEq self.df d)

/-- Sample composite key. -/
def kAAPL : BarKey := ⟨"AAPL", "TRADES", "1d", 20240102⟩

/-- A second sample key, one session later. -/
def kAAPL2 : BarKey := ⟨"AAPL", "TRADES", "1d", 20240103⟩

/-- Raw input row of the C1 scenario block A: open 10, volume missing. -/
def rawRowA : BarRow := ⟨some 10, none, none, none, none, none, none⟩

/-- Raw input row of the C1 scenario block B: open missing, volume 500. -/
def rawRowB : BarRow := ⟨none, none, none, none, some 500, none, none⟩

/-- Block A of the C1 scenario, built by a `MarketDataBlock` update from
the raw rows (which fills the missing cells with the -1 sentinel). -/
def blockA : DataFrame := MarketDataBlock.update [] [(kAAPL, rawRowA)]

/-- Block B of the C1 scenario, built the same way. -/
def blockB : DataFrame := MarketDataBlock.update [] [(kAAPL, rawRowB)]

theorem take_bisect_left_eq_takeWhile (cal : List ℤ) (x : ℤ) :
    cal.take (bisect_left cal x) = cal.takeWhile (fun d => d < x) := by
  unfold bisect_left
  induction cal with
  | nil => rfl
  | cons a tl ih =>
    simp only [List.takeWhile_cons]
    by_cases h : a < x
    · simp only [h, decide_True, if_true, List.length_cons, List.take_succ_cons]
      rw [ih]
    · simp [h]

theorem sorted_takeWhile_lt_eq_filter (cal : List ℤ) (hcal : cal.Sorted (· ≤ ·)) (x : ℤ) :
    cal.takeWhile (fun d => d < x) = cal.filter (fun d => d < x) := by
  induction cal with
  | nil => rfl
  | cons a tl ih =>
    rw [List.sorted_cons] at hcal
    simp only [List.takeWhile_cons, List.filter_cons]
    by_cases h : a < x
    · simp only [h, decide_True, if_true]
      rw [ih hcal.2]
    · have hnil : tl.filter (fun d => decide (d < x)) = [] := by
        rw [List.filter_eq_nil_iff]
        intro b hb
        simp only [decide_eq_true_eq]
        exact fun hbx => h (lt_of_le_of_lt (hcal.1 b hb) hbx)
      simp [h, hnil]

theorem sorted_drop_bisect_filter (cal : List ℤ) (hcal : cal.Sorted (· ≤ ·)) (s e : ℤ) :
    (cal.takeWhile (fun d => d < e)).drop (bisect_left cal s) =
      cal.filter (fun d => s ≤ d ∧ d < e) := by
  unfold bisect_left
  induction cal with
  | nil => rfl
  | cons a tl ih =>
    rw [List.sorted_cons] at hcal
    simp only [List.takeWhile_cons, List.filter_cons]
    by_cases hs : a < s
    · have hna : ¬ (s ≤ a ∧ a < e) := fun hc => absurd hc.1 (not_le.mpr hs)
      have d1 : decide (a < s) = true := by simp [hs]
      have d3 : decide (s ≤ a ∧ a < e) = false := by simp [hna]
      rw [d1, if_pos rfl, d3, if_neg (by simp : ¬ (false = true))]
      by_cases he : a < e
      · have d2 : decide (a < e) = true := by simp [he]
        rw [d2, if_pos rfl]
        simp only [List.length_cons, List.drop_succ_cons]
        exact ih hcal.2
      · have d2 : decide (a < e) = false := by simp [he]
        rw [d2, if_neg (by simp : ¬ (false = true))]
        have hnil : tl.filter (fun d => decide (s ≤ d ∧ d < e)) = [] := by
          rw [List.filter_eq_nil_iff]
          intro b hb hbool
          rw [decide_eq_true_eq] at hbool
          exact he (lt_of_le_of_lt (hcal.1 b hb) hbool.2)
        rw [hnil, List.drop_nil]
    · have hsa : s ≤ a := not_lt.mp hs
      have hall : ∀ b ∈ a :: tl, (fun d => decide (d < e)) b = (fun d => decide (s ≤ d ∧ d < e)) b := by
        intro b hb
        have hsb : s ≤ b := by
          rcases List.mem_cons.mp hb with rfl | hbtl
          · exact hsa
          · exact le_trans hsa (hcal.1 b hbtl)
        by_cases hbe : b < e <;> simp [hbe, hsb]
      have htw : (a :: tl).takeWhile (fun d => d < e) = (a :: tl).filter (fun d => s ≤ d ∧ d < e) := by
        rw [sorted_takeWhile_lt_eq_filter (a :: tl) (List.sorted_cons.mpr hcal) e]
        exact List.filter_congr hall
      simp only [List.takeWhile_cons, List.filter_cons] at htw
      have d1 : decide (a < s) = false := by simp [hs]
      rw [d1, if_neg (by simp : ¬ (false = true))]
      simp only [List.length_nil, List.drop_zero]
      exact htw

theorem trading_days_eq_filter (cal : List ℤ) (hcal : cal.Sorted (· ≤ ·)) (e s : ℤ) :
    trading_days cal e s = cal.filter (fun d => s ≤ d ∧ d < e) := by
  unfold trading_days
  rw [take_bisect_left_eq_takeWhile, sorted_drop_bisect_filter cal hcal s e]

theorem lookupRow_mem {df : DataFrame} {k : BarKey} {r : BarRow}
    (h : lookupRow df k = some r) : (k, r) ∈ df := by
  induction df with
  | nil => simp [lookupRow] at h
  | cons p rest ih =>
    rw [lookupRow] at h
    by_cases hp : p.1 = k
    · rw [if_pos hp] at h
      obtain rfl := Option.some.inj h
      exact List.mem_cons.mpr (Or.inl (Prod.ext hp.symm rfl))
    · rw [if_neg hp] at h
      exact List.mem_cons_of_mem p (ih h)

theorem lookupRow_mem_keys {df : DataFrame} {k : BarKey} {r : BarRow}
    (h : lookupRow df k = some r) : k ∈ keysOf df := by
  have := lookupRow_mem h
  exact List.mem_map_of_mem Prod.fst this

theorem lookupRow_ne_nil {df : DataFrame} {k : BarKey} {r : BarRow}
    (h : lookupRow df k = some r) : df ≠ [] := by
  intro hnil
  rw [hnil] at h
  simp [lookupRow] at h

theorem lookupRow_of_keyUnique {df : DataFrame} {k : BarKey} {r : BarRow}
    (hu : KeyUnique df) (hmem : (k, r) ∈ df) : lookupRow df k = some r := by
  induction df with
  | nil => simp at hmem
  | cons p rest ih =>
    unfold KeyUnique keysOf at hu
    rw [List.map_cons, List.nodup_cons] at hu
    rcases List.mem_cons.mp hmem with rfl | htl
    · rw [lookupRow, if_pos rfl]
    · rw [lookupRow]
      by_cases hp : p.1 = k
      · exfalso
        apply hu.1
        rw [hp]
        exact List.mem_map_of_mem Prod.fst htl
      · rw [if_neg hp]
        exact ih hu.2 htl

theorem row_eq_of_keyUnique {df : DataFrame} {k : BarKey} {r1 r2 : BarRow}
    (hu : KeyUnique df) (h1 : (k, r1) ∈ df) (h2 : (k, r2) ∈ df) : r1 = r2 := by
  have e1 := lookupRow_of_keyUnique hu h1
  have e2 := lookupRow_of_keyUnique hu h2
  rw [e1] at e2
  exact Option.some.inj e2

theorem lookupRow_fillna (df : DataFrame) (k : BarKey) :
    lookupRow (fillna df) k = (lookupRow df k).map fillRow := by
  induction df with
  | nil => rfl
  | cons p rest ih =>
    unfold fillna at *
    rw [List.map_cons, lookupRow, lookupRow]
    by_cases hp : p.1 = k
    · rw [if_pos hp, if_pos hp]
      rfl
    · rw [if_neg hp, if_neg hp]
      exact ih

theorem lookupRow_keyFun (kl : List BarKey) (f : BarKey → BarRow) (k : BarKey)
    (hk : k ∈ kl) : lookupRow (kl.map (fun k => (k, f k))) k = some (f k) := by
  induction kl with
  | nil => simp at hk
  | cons a tl ih =>
    rw [List.map_cons, lookupRow]
    by_cases ha : a = k
    · rw [if_pos ha, ha]
    · rw [if_neg ha]
      exact ih (List.mem_of_ne_of_mem (fun he => ha he.symm) hk)

theorem keysOf_fillna (df : DataFrame) : keysOf (fillna df) = keysOf df := by
  unfold keysOf fillna
  rw [List.map_map]
  rfl

theorem keysOf_combine_first (dfIn dfSelf : DataFrame) :
    keysOf (combine_first dfIn dfSelf) =
      List.insertionSort BarKey.le ((keysOf dfIn ++ keysOf dfSelf).dedup) := by
  unfold combine_first keysOf
  rw [List.map_map]
  have hcomp : (Prod.fst ∘ fun k => (k, mergeAt dfIn dfSelf k)) = id := rfl
  rw [hcomp, List.map_id]

theorem keyUnique_fillna {df : DataFrame} (h : KeyUnique df) : KeyUnique (fillna df) := by
  unfold KeyUnique
  rw [keysOf_fillna]
  exact h

theorem keyUnique_sortByKey {df : DataFrame} (h : KeyUnique df) : KeyUnique (sortByKey df) := by
  unfold KeyUnique keysOf sortByKey
  apply List.Nodup.perm h
  exact (List.Perm.map Prod.fst (List.perm_insertionSort rowLe df)).symm

theorem keyUnique_combine_first (dfIn dfSelf : DataFrame) :
    KeyUnique (combine_first dfIn dfSelf) := by
  unfold KeyUnique
  rw [keysOf_combine_first]
  apply List.Nodup.perm (List.nodup_dedup _)
  exact (List.perm_insertionSort BarKey.le _).symm

theorem noNullRow_fillRow (r : BarRow) : NoNullRow (fillRow r) := by
  intro c hc
  cases r
  simp only [fillRow, fillCell, BarRow.cells, List.mem_cons, List.not_mem_nil, or_false] at hc
  rcases hc with h | h | h | h | h | h | h <;> rw [h] <;> exact Option.some_ne_none _

theorem noNulls_fillna (df : DataFrame) : NoNulls (fillna df) := by
  intro p hp
  unfold fillna at hp
  obtain ⟨q, _, rfl⟩ := List.mem_map.mp hp
  exact noNullRow_fillRow q.2

theorem fillCell_eq_of_ne_none {c : Option ℤ} (h : c ≠ none) : fillCell c = c := by
  cases c with
  | none => exact absurd rfl h
  | some v => rfl

theorem fillRow_eq_of_noNullRow {r : BarRow} (h : NoNullRow r) : fillRow r = r := by
  cases r with
  | mk o hi lo cl vo bc av =>
    have ho := h o (by simp [BarRow.cells])
    have hhi := h hi (by simp [BarRow.cells])
    have hlo := h lo (by simp [BarRow.cells])
    have hcl := h cl (by simp [BarRow.cells])
    have hvo := h vo (by simp [BarRow.cells])
    have hbc := h bc (by simp [BarRow.cells])
    have hav := h av (by simp [BarRow.cells])
    unfold fillRow
    simp only [BarRow.mk.injEq]
    exact ⟨fillCell_eq_of_ne_none ho, fillCell_eq_of_ne_none hhi, fillCell_eq_of_ne_none hlo,
      fillCell_eq_of_ne_none hcl, fillCell_eq_of_ne_none hvo, fillCell_eq_of_ne_none hbc,
      fillCell_eq_of_ne_none hav⟩

theorem fillna_eq_of_noNulls {df : DataFrame} (h : NoNulls df) : fillna df = df := by
  induction df with
  | nil => rfl
  | cons p rest ih =>
    unfold fillna at *
    rw [List.map_cons]
    have h1 : fillRow p.2 = p.2 := fillRow_eq_of_noNullRow (h p (by simp))
    have h2 : rest.map (fun p => (p.1, fillRow p.2)) = rest :=
      ih (fun q hq => h q (List.mem_cons_of_mem p hq))
    rw [h1, h2]

theorem mergeCell_self (c : Option ℤ) : mergeCell c c = c := by
  cases c <;> rfl

theorem mergeRow_self (r : BarRow) : mergeRow r r = r := by
  cases r
  unfold mergeRow
  simp only [BarRow.mk.injEq]
  exact ⟨mergeCell_self _, mergeCell_self _, mergeCell_self _, mergeCell_self _,
    mergeCell_self _, mergeCell_self _, mergeCell_self _⟩

theorem lookupRow_combine_first (dfIn dfSelf : DataFrame) (k : BarKey)
    (hk : k ∈ keysOf dfIn ++ keysOf dfSelf) :
    lookupRow (combine_first dfIn dfSelf) k = some (mergeAt dfIn dfSelf k) := by
  unfold combine_first
  apply lookupRow_keyFun
  exact (List.perm_insertionSort BarKey.le _).mem_iff.mpr (List.mem_dedup.mpr hk)

theorem map_keys_recon (df : DataFrame) (g : BarKey → BarRow)
    (h : ∀ p ∈ df, g p.1 = p.2) : (keysOf df).map (fun k => (k, g k)) = df := by
  induction df with
  | nil => rfl
  | cons p rest ih =>
    unfold keysOf
    rw [List.map_cons, List.map_cons]
    have h1 : g p.1 = p.2 := h p (by simp)
    rw [h1]
    have h2 := ih (fun q hq => h q (List.mem_cons_of_mem p hq))
    unfold keysOf at h2
    rw [h2]

theorem combine_first_of_subset (B R : DataFrame) (hSort : SortedKeys B)
    (hKeys : KeyUnique B) (hsub : R ⊆ B) : combine_first R B = B := by
  unfold combine_first
  have hkeysub : keysOf R ⊆ keysOf B := by
    intro x hx
    obtain ⟨p, hp, rfl⟩ := List.mem_map.mp hx
    exact List.mem_map_of_mem Prod.fst (hsub hp)
  have hperm : ((keysOf R ++ keysOf B).dedup).Perm (keysOf B) := by
    rw [List.perm_ext_iff_of_nodup (List.nodup_dedup _) hKeys]
    intro a
    rw [List.mem_dedup, List.mem_append]
    constructor
    · rintro (h | h)
      · exact hkeysub h
      · exact h
    · exact Or.inr
  have hkeq : List.insertionSort BarKey.le ((keysOf R ++ keysOf B).dedup) = keysOf B :=
    List.eq_of_perm_of_sorted ((List.perm_insertionSort BarKey.le _).trans hperm)
      (List.sorted_insertionSort BarKey.le _) hSort
  rw [hkeq]
  apply map_keys_recon
  intro p hp
  have hlB : lookupRow B p.1 = some p.2 := lookupRow_of_keyUnique hKeys hp
  unfold mergeAt
  cases hlR : lookupRow R p.1 with
  | none => rw [hlB]
  | some ri =>
    have hmemR : (p.1, ri) ∈ R := lookupRow_mem hlR
    have hmemB : (p.1, ri) ∈ B := hsub hmemR
    have : ri = p.2 := row_eq_of_keyUnique hKeys hmemB hp
    subst this
    rw [hlB]
    show mergeRow p.2 p.2 = p.2
    exact mergeRow_self p.2

theorem mergeCell_ne_none {ci cs : Option ℤ} (h : cs ≠ none) : mergeCell ci cs ≠ none := by
  cases ci with
  | none => exact h
  | some v => exact Option.some_ne_none v

theorem noNullRow_mergeRow {ri rs : BarRow} (h : NoNullRow rs) : NoNullRow (mergeRow ri rs) := by
  cases ri with
  | mk o1 h1 l1 c1 v1 b1 a1 =>
    cases rs with
    | mk o2 h2 l2 c2 v2 b2 a2 =>
      have ho := h o2 (by simp [BarRow.cells])
      have hh := h h2 (by simp [BarRow.cells])
      have hl := h l2 (by simp [BarRow.cells])
      have hc := h c2 (by simp [BarRow.cells])
      have hv := h v2 (by simp [BarRow.cells])
      have hb := h b2 (by simp [BarRow.cells])
      have ha := h a2 (by simp [BarRow.cells])
      intro c hmem
      simp only [mergeRow, BarRow.cells, List.mem_cons, List.not_mem_nil, or_false] at hmem
      rcases hmem with h0 | h0 | h0 | h0 | h0 | h0 | h0 <;> rw [h0]
      · exact mergeCell_ne_none ho
      · exact mergeCell_ne_none hh
      · exact mergeCell_ne_none hl
      · exact mergeCell_ne_none hc
      · exact mergeCell_ne_none hv
      · exact mergeCell_ne_none hb
      · exact mergeCell_ne_none ha

theorem mergeCell_eq_ite (cb ca : Option ℤ) :
    mergeCell cb ca = if cb = none then ca else cb := by
  cases cb with
  | none => rw [if_pos rfl]; rfl
  | some v => rw [if_neg (Option.some_ne_none v)]; rfl

theorem combine_lookup_merges (A B : DataFrame) (k : BarKey) (ra rb : BarRow)
    (hA : NoNulls A) (ha : lookupRow A k = some ra) (hb : lookupRow B k = some rb) :
    lookupRow (MarketDataBlock.combine A B) k = some (mergeRow rb ra) := by
  unfold MarketDataBlock.combine MarketDataBlock.update
  have hBne : B ≠ [] := lookupRow_ne_nil hb
  have hAne : A ≠ [] := lookupRow_ne_nil ha
  rw [if_neg hBne, if_neg hAne, lookupRow_fillna,
    lookupRow_combine_first B A k (List.mem_append.mpr (Or.inl (lookupRow_mem_keys hb)))]
  unfold mergeAt
  rw [hb, ha]
  have hnn : NoNullRow (mergeRow rb ra) := noNullRow_mergeRow (hA (k, ra) (lookupRow_mem ha))
  show some (fillRow (mergeRow rb ra)) = some (mergeRow rb ra)
  rw [fillRow_eq_of_noNullRow hnn]

theorem update_keyUnique {blk df_in : DataFrame} (hb : KeyUnique blk) (hi : KeyUnique df_in) :
    KeyUnique (MarketDataBlock.update blk df_in) := by
  unfold MarketDataBlock.update
  by_cases h1 : df_in = []
  · rw [if_pos h1]
    exact hb
  · rw [if_neg h1]
    by_cases h2 : blk = []
    · rw [if_pos h2]
      exact keyUnique_fillna (keyUnique_sortByKey hi)
    · rw [if_neg h2]
      exact keyUnique_fillna (keyUnique_combine_first df_in blk)

theorem foldl_update_keyUnique (dfs : List DataFrame) (blk : DataFrame) (hb : KeyUnique blk)
    (h : ∀ df ∈ dfs, KeyUnique df) : KeyUnique (List.foldl MarketDataBlock.update blk dfs) := by
  induction dfs generalizing blk with
  | nil => exact hb
  | cons d rest ih =>
    rw [List.foldl_cons]
    exact ih _ (update_keyUnique hb (h d (by simp)))
      (fun df hdf => h df (List.mem_cons_of_mem d hdf))

theorem update_noNulls_of_ne_nil (blk df_in : DataFrame) (h : df_in ≠ []) :
    NoNulls (MarketDataBlock.update blk df_in) := by
  unfold MarketDataBlock.update
  rw [if_neg h]
  by_cases h2 : blk = []
  · rw [if_pos h2]
    exact noNulls_fillna _
  · rw [if_neg h2]
    exact noNulls_fillna _

theorem mem_sortedSymmDiff (a b : List ℤ) (x : ℤ) :
    x ∈ sortedSymmDiff a b ↔ ((x ∈ a ∧ x ∉ b) ∨ (x ∈ b ∧ x ∉ a)) := by
  unfold sortedSymmDiff
  rw [(List.perm_insertionSort (· ≤ ·) _).mem_iff, List.mem_append,
    List.mem_filter, List.mem_filter, List.mem_dedup, List.mem_dedup]
  simp only [decide_eq_true_eq]

theorem nodup_sortedSymmDiff (a b : List ℤ) : (sortedSymmDiff a b).Nodup := by
  unfold sortedSymmDiff
  apply List.Nodup.perm _ (List.perm_insertionSort (· ≤ ·) _).symm
  apply List.Nodup.append
  · exact List.Nodup.filter _ (List.nodup_dedup a)
  · exact List.Nodup.filter _ (List.nodup_dedup b)
  · intro x hx1 hx2
    rw [List.mem_filter, List.mem_dedup] at hx1 hx2
    rw [decide_eq_true_eq] at hx1
    exact hx1.2 hx2.1

theorem sortedSymmDiff_eq_nil {a b : List ℤ} (h : ∀ x, x ∈ a ↔ x ∈ b) :
    sortedSymmDiff a b = [] := by
  unfold sortedSymmDiff
  have h1 : a.dedup.filter (fun x => decide (x ∉ b)) = [] := by
    rw [List.filter_eq_nil_iff]
    intro x hx hbool
    rw [decide_eq_true_eq] at hbool
    exact hbool ((h x).mp (List.mem_dedup.mp hx))
  have h2 : b.dedup.filter (fun x => decide (x ∉ a)) = [] := by
    rw [List.filter_eq_nil_iff]
    intro x hx hbool
    rw [decide_eq_true_eq] at hbool
    exact hbool ((h x).mpr (List.mem_dedup.mp hx))
  rw [h1, h2]
  rfl

theorem filter_eq_singleton_of_nodup {l : List ℤ} {y : ℤ} (hn : l.Nodup) (hy : y ∈ l) :
    l.filter (fun x => decide (x = y)) = [y] := by
  induction l with
  | nil => simp at hy
  | cons a tl ih =>
    rw [List.nodup_cons] at hn
    by_cases hay : a = y
    · subst hay
      rw [List.filter_cons, if_pos (by simp)]
      have : tl.filter (fun x => decide (x = a)) = [] := by
        rw [List.filter_eq_nil_iff]
        intro x hx hbool
        rw [decide_eq_true_eq] at hbool
        subst hbool
        exact hn.1 hx
      rw [this]
    · rw [List.filter_cons, if_neg (by simp [hay])]
      exact ih hn.2 (List.mem_of_ne_of_mem (fun he => hay he.symm) hy)

theorem char_isDigit_not_isAlpha {c : Char} (h : c.isDigit = true) : c.isAlpha = false := by
  have h48 : (UInt32.toBitVec 48).toNat = 48 := by decide
  have h57 : (UInt32.toBitVec 57).toNat = 57 := by decide
  have h65 : (UInt32.toBitVec 65).toNat = 65 := by decide
  have h90 : (UInt32.toBitVec 90).toNat = 90 := by decide
  have h97 : (UInt32.toBitVec 97).toNat = 97 := by decide
  have h122 : (UInt32.toBitVec 122).toNat = 122 := by decide
  simp only [Char.isDigit, Char.isAlpha, Char.isUpper, Char.isLower, Bool.and_eq_true,
    decide_eq_true_eq, Bool.or_eq_false_iff, Bool.and_eq_false_iff, decide_eq_false_iff_not,
    ge_iff_le, UInt32.le_def, BitVec.le_def, h48, h57, h65, h90, h97, h122] at *
  omega

theorem firstDigitRun_eq_none_iff (l : List Char) :
    firstDigitRun l = none ↔ ∀ c ∈ l, c.isDigit = false := by
  induction l with
  | nil => simp [firstDigitRun]
  | cons c cs ih =>
    rw [firstDigitRun]
    by_cases hc : c.isDigit
    · rw [if_pos hc]
      simp [hc]
    · rw [if_neg hc]
      rw [ih]
      constructor
      · intro h d hd
        rcases List.mem_cons.mp hd with rfl | hdc
        · exact Bool.eq_false_iff.mpr hc
        · exact h d hdc
      · intro h d hd
        exact h d (List.mem_cons_of_mem c hd)

theorem takeWhile_append_last {p : Char → Bool} {l : List Char} {x : Char}
    (hl : ∀ c ∈ l, p c = true) (hx : p x = false) : (l ++ [x]).takeWhile p = l := by
  induction l with
  | nil => simp [List.takeWhile_cons, hx]
  | cons a tl ih =>
    rw [List.cons_append, List.takeWhile_cons, hl a (by simp), if_pos rfl]
    rw [ih (fun c hc => hl c (List.mem_cons_of_mem a hc))]

theorem firstDigitRun_digits_append {num : List Char} {x : Char} (hne : num ≠ [])
    (hdig : ∀ c ∈ num, c.isDigit = true) (hx : x.isDigit = false) :
    firstDigitRun (num ++ [x]) = some num := by
  cases num with
  | nil => exact absurd rfl hne
  | cons a tl =>
    rw [List.cons_append, firstDigitRun, if_pos (hdig a (by simp))]
    rw [takeWhile_append_last (fun c hc => hdig c (List.mem_cons_of_mem a hc)) hx]

theorem filter_alpha_digits_append (num : List Char) (x : Char)
    (hdig : ∀ c ∈ num, c.isDigit = true) (hx : x.isAlpha = true) :
    (num ++ [x]).filter Char.isAlpha = [x] := by
  rw [List.filter_append]
  have h1 : num.filter Char.isAlpha = [] := by
    rw [List.filter_eq_nil_iff]
    intro c hc
    rw [char_isDigit_not_isAlpha (hdig c hc)]
    exact Bool.false_ne_true
  rw [h1, List.nil_append, List.filter_cons, if_pos hx]
  rfl

theorem timedur_eq_of_no_digit {s : String} (h : firstDigitRun s.toList = none) :
    timedur_standardize s = .error .indexError := by
  unfold timedur_standardize
  rw [h]

theorem timedur_eq_single_letter {s : String} {num : List Char} {c : Char}
    (hfd : firstDigitRun s.toList = some num)
    (hlet : s.toList.filter Char.isAlpha = [c]) :
    timedur_standardize s =
      (if c.toLower ∈ ['s', 'm', 'h', 'd', 'w', 'y'] then
        Except.ok (String.mk (num ++
          [if c ∈ ['w', 'W', 'M', 'y', 'Y'] then c.toLower.toUpper else c.toLower]))
      else Except.error PyErr.exceptionErr) := by
  unfold timedur_standardize
  rw [hfd, hlet]

theorem timedur_eq_verbose_nil {s : String} {num : List Char}
    (hfd : firstDigitRun s.toList = some num)
    (hlet : s.toList.filter Char.isAlpha = []) :
    timedur_standardize s =
      (match (unit_map.find? (fun p => containsRun p.1 s.toList)).map Prod.snd with
       | some u => Except.ok (String.mk (num ++ [u]))
       | none => Except.error PyErr.typeError) := by
  unfold timedur_standardize
  rw [hfd, hlet]

theorem timedur_eq_verbose_multi {s : String} {num : List Char} {c d : Char} {rest : List Char}
    (hfd : firstDigitRun s.toList = some num)
    (hlet : s.toList.filter Char.isAlpha = c :: d :: rest) :
    timedur_standardize s =
      (match (unit_map.find? (fun p => containsRun p.1 s.toList)).map Prod.snd with
       | some u => Except.ok (String.mk (num ++ [u]))
       | none => Except.error PyErr.typeError) := by
  unfold timedur_standardize
  rw [hfd, hlet]

theorem hasDigit_of_firstDigitRun {s : String} {num : List Char}
    (h : firstDigitRun s.toList = some num) : hasDigit s = true := by
  by_contra hcon
  have hfalse : hasDigit s = false := Bool.eq_false_iff.mpr hcon
  unfold hasDigit at hfalse
  rw [List.any_eq_false] at hfalse
  have : firstDigitRun s.toList = none :=
    (firstDigitRun_eq_none_iff _).mpr (fun c hc => Bool.eq_false_iff.mpr (hfalse c hc))
  rw [this] at h
  exact Option.noConfusion h

theorem not_hasDigit_of_firstDigitRun_none {s : String}
    (h : firstDigitRun s.toList = none) : hasDigit s = false := by
  rw [firstDigitRun_eq_none_iff] at h
  unfold hasDigit
  rw [List.any_eq_false]
  intro c hc
  rw [h c hc]
  exact Bool.false_ne_true

theorem query_split_eq_of_std (barsize std : String)
    (hstd : timedur_standardize barsize = .ok std)
    (T C : List ℤ) (now : ℤ) (td dd : List ℤ) :
    query_hist_data_split_req barsize T C now td dd =
      (if std.toList.getLast? ∈ [some 's', some 'W', some 'M'] then
        Except.error SplitErr.notImplementedError
      else if barsize.toList.getLast? ∈ [some 'd', some 'W', some 'M', some 'Y'] then
        Except.ok (SplitPlan.coarse (split_req_coarse T C now))
      else match split_req_fine td dd with
           | some out => Except.ok (SplitPlan.fine out)
           | none => Except.error SplitErr.valueError) := by
  unfold query_hist_data_split_req
  rw [hstd]

theorem get_hist_data_eq_of_std (barsize std : String)
    (hstd : timedur_standardize barsize = .ok std)
    (T C : List ℤ) (now : ℤ) (td dd : List ℤ) :
    get_hist_data true barsize T C now td dd =
      (if std.toList.getLast? = some 's' then Except.ok FetchPath.direct
       else (query_hist_data_split_req barsize T C now td dd).map FetchPath.viaCache) := by
  unfold get_hist_data
  rw [if_neg (by simp : ¬ (true = false)), hstd]

/-- C1 (counterexample).  The claim asserts that combining Block A
(open 10, volume null) with Block B (open null, volume 500) yields open
10 and volume 500.  On the code, block construction has already replaced
every null with the -1 sentinel, so B's stored open cell is -1, which is
non-null and overwrites A's open 10: the combined row holds open -1 and
volume 500, not open 10.  The claimed values do arise, but only when B's
raw rows (open still null) are merged into A via `update`. -/
theorem c1_combine_scenario_counterexample :
    (lookupRow (MarketDataBlock.combine blockA blockB) kAAPL).map BarRow.opening =
      some (some (-1)) ∧
    (lookupRow (MarketDataBlock.combine blockA blockB) kAAPL).map BarRow.opening ≠
      some (some 10) ∧
    (lookupRow (MarketDataBlock.combine blockA blockB) kAAPL).map BarRow.volume =
      some (some 500) ∧
    (lookupRow (MarketDataBlock.update blockA [(kAAPL, rawRowB)]) kAAPL).map BarRow.opening =
      some (some 10) ∧
    (lookupRow (MarketDataBlock.update blockA [(kAAPL, rawRowB)]) kAAPL).map BarRow.volume =
      some (some 500) := by
  decide

/-- C1 (amended).  The merge of `update`/`combine` is cell-wise with
non-null-wins semantics over the stored cells: for two blocks holding a
row with the same composite key (the existing block free of nulls, as
every constructed block is), the merged row keeps the existing cell
wherever the incoming cell is null and takes the incoming cell wherever
it is non-null.  Since construction replaces nulls by the -1 sentinel,
the C1 scenario on constructed blocks yields open -1, volume 500. -/
theorem c1_combine_cellwise_nonnull_wins (A B : DataFrame) (k : BarKey) (ra rb : BarRow)
    (hA : NoNulls A) (ha : lookupRow A k = some ra) (hb : lookupRow B k = some rb) :
    lookupRow (MarketDataBlock.combine A B) k = some (mergeRow rb ra) ∧
    (mergeRow rb ra).cells =
      List.zipWith (fun cb ca => if cb = none then ca else cb) rb.cells ra.cells := by
  refine ⟨combine_lookup_merges A B k ra rb hA ha hb, ?_⟩
  cases rb
  cases ra
  simp [BarRow.cells, mergeRow, mergeCell_eq_ite]

/-- Witness for C1: the amended theorem applied to the concrete scenario
blocks. -/
theorem c1_combine_cellwise_nonnull_wins_witness :
    lookupRow (MarketDataBlock.combine blockA blockB) kAAPL =
      some (mergeRow
        ⟨some (-1), some (-1), some (-1), some (-1), some 500, some (-1), some (-1)⟩
        ⟨some 10, some (-1), some (-1), some (-1), some (-1), some (-1), some (-1)⟩) :=
  (c1_combine_cellwise_nonnull_wins blockA blockB kAAPL
    ⟨some 10, some (-1), some (-1), some (-1), some (-1), some (-1), some (-1)⟩
    ⟨some (-1), some (-1), some (-1), some (-1), some 500, some (-1), some (-1)⟩
    (by decide) (by decide) (by decide)).1

/-- C5.  Merge idempotence: combining a block with any subset of its own
rows leaves it unchanged.  The block invariants (sorted unique keys, no
nulls) hold for every block built through `update`/`combine`. -/
theorem c5_combine_subset_idempotent (B R : DataFrame) (hSort : SortedKeys B)
    (hKeys : KeyUnique B) (hNN : NoNulls B) (hsub : R ⊆ B) :
    MarketDataBlock.combine B R = B := by
  unfold MarketDataBlock.combine MarketDataBlock.update
  by_cases hR : R = []
  · rw [if_pos hR]
  · rw [if_neg hR]
    have hBne : B ≠ [] := by
      rcases hR' : R with _ | ⟨p, rest⟩
      · exact absurd hR' hR
      · intro hB
        have hmem := hsub (hR' ▸ List.mem_cons_self p rest)
        rw [hB] at hmem
        exact List.not_mem_nil _ hmem
    rw [if_neg hBne, combine_first_of_subset B R hSort hKeys hsub]
    exact fillna_eq_of_noNulls hNN

/-- Witness for C5: a constructed one-row block combined with itself. -/
theorem c5_combine_subset_idempotent_witness :
    MarketDataBlock.combine blockA blockA = blockA :=
  c5_combine_subset_idempotent blockA blockA (by decide) (by decide) (by decide)
    (fun a ha => ha)

/-- C6 (counterexample).  A single `update` from the empty block whose
input frame carries two rows with the same composite key produces a
block with a duplicated key: the empty-block branch is a plain
`sort_index()` with no key deduplication. -/
theorem c6_key_uniqueness_counterexample :
    ¬ KeyUnique (List.foldl MarketDataBlock.update []
      [[(kAAPL, rawRowA), (kAAPL, rawRowB)]]) := by
  decide

/-- C6 (amended).  Key uniqueness after any sequence of
`update`/`combine` calls from the empty block, provided every input
frame itself carries pairwise distinct composite keys. -/
theorem c6_key_uniqueness (dfs : List DataFrame) (h : ∀ df ∈ dfs, KeyUnique df) :
    KeyUnique (List.foldl MarketDataBlock.update [] dfs) :=
  foldl_update_keyUnique dfs [] (by simp [KeyUnique, keysOf]) h

/-- Witness for C6: two single-row updates with distinct keys. -/
theorem c6_key_uniqueness_witness :
    KeyUnique (List.foldl MarketDataBlock.update []
      [[(kAAPL, rawRowA)], [(kAAPL2, rawRowB)]]) :=
  c6_key_uniqueness [[(kAAPL, rawRowA)], [(kAAPL2, rawRowB)]] (by decide)

/-- C8 (code bug).  `MarketDataBlock.__eq__` evaluates
`self.df == mkt_data_block.data`, but no `MarketDataBlock` defines an
attribute `data` (the frame is stored in `df`), so the comparison raises
`AttributeError` for every pair of blocks instead of returning a
boolean — in particular comparing a block with an identical copy of
itself does not return `True`. -/
theorem c8_eq_raises_attribute_error (a b : MDBObject) :
    MDBObject.eqOp a b = none := by
  unfold MDBObject.eqOp MDBObject.getattrFrame
  rw [if_neg (by decide : ¬ (("data") : String) = ("df"))]
  rfl

/-- C10.  After every non-empty `update` the block holds no null cell in
any column (every missing value, price columns included, has been
replaced through `fillna(-1)`), and the fill maps a null cell to the -1
sentinel.  The int64 coercion of the volume and barcount columns is an
identity in this embedding, whose cell values are already integers. -/
theorem c10_update_no_nulls (blk df_in : DataFrame) (h : df_in ≠ []) :
    NoNulls (MarketDataBlock.update blk df_in) ∧ fillCell none = some (-1) :=
  ⟨update_noNulls_of_ne_nil blk df_in h, rfl⟩

/-- Witness for C10: the construction of the scenario block A from a raw
row with six missing cells. -/
theorem c10_update_no_nulls_witness :
    NoNulls (MarketDataBlock.update [] [(kAAPL, rawRowA)]) ∧ fillCell none = some (-1) :=
  c10_update_no_nulls [] [(kAAPL, rawRowA)] (by decide)

/-- C4 (counterexample).  With a calendar holding sessions 1, 2, 3 and an
explicit start 1 and end 3, the session equal to the end boundary is not
returned: `bisect_left` makes the slice `[start, end)`, exclusive at the
end. -/
theorem c4_end_boundary_counterexample :
    (3 : ℤ) ∈ ([1, 2, 3] : List ℤ) ∧ ((1 : ℤ) ≤ 3 ∧ (3 : ℤ) ≤ 3) ∧
    (3 : ℤ) ∉ trading_days [1, 2, 3] 3 1 := by
  decide

/-- C4 (amended).  The explicit-start trading-calendar query returns
exactly the sessions `d` with `start ≤ d < end` — inclusive at the
start, exclusive at the end — in ascending order; a session exactly on
the end boundary is excluded. -/
theorem c4_trading_days_half_open (cal : List ℤ) (hcal : cal.Sorted (· ≤ ·)) (e s : ℤ) :
    trading_days cal e s = cal.filter (fun d => s ≤ d ∧ d < e) ∧
    (trading_days cal e s).Sorted (· ≤ ·) ∧
    (∀ d : ℤ, d ∈ trading_days cal e s ↔ (d ∈ cal ∧ s ≤ d ∧ d < e)) := by
  have h1 := trading_days_eq_filter cal hcal e s
  refine ⟨h1, ?_, ?_⟩
  · rw [h1]
    exact List.Pairwise.filter _ hcal
  · intro d
    rw [h1, List.mem_filter]
    simp

/-- Witness for C4: the amended theorem at the concrete calendar of the
counterexample. -/
theorem c4_trading_days_half_open_witness :
    trading_days [1, 2, 3] 3 1 = ([1, 2, 3] : List ℤ).filter (fun d => 1 ≤ d ∧ d < 3) :=
  (c4_trading_days_half_open [1, 2, 3] (by decide) 3 1).1

/-- C2 (counterexample).  For gap year 2019 the planner emits the
one-year download ending at the last instant of 2019, but the matching
insert-limit window ends at the last instant of 2020, not 2019: the
source builds the upper bound from `datetime(yr + 1, 12, 31)`, so the
window is not the calendar-year span of the gap year. -/
theorem c2_insert_limit_counterexample :
    (split_req_coarse [2019] [] 2026).1 = [(("1y"), tzmax 2019 12 31)] ∧
    (split_req_coarse [2019] [] 2026).2 = [(tzlocalize 2019 1 1, tzmax 2020 12 31)] ∧
    tzmax 2020 12 31 ≠ tzmax 2019 12 31 := by
  decide

/-- C2 (amended).  For every coarse-granularity plan, each gap year `y`
of the sorted symmetric difference of required years and cached years
(the current year removed from the cached side first) produces exactly
one sub-request: its duration string is `1y` (standardized to one year,
`1Y`), it ends at the last instant of year `y`, and the insert-limit
window at the same position spans from the first instant of year `y` to
the last instant of year `y + 1` — one year beyond the claimed
calendar-year span. -/
theorem c2_coarse_gap_year_subrequests (T C : List ℤ) (now y : ℤ)
    (hy : y ∈ sortedSymmDiff T (C.dedup.erase now)) :
    (((split_req_coarse T C now).1.filter (fun e => decide (e.2.year = y))).length = 1) ∧
    ((("1y"), tzmax y 12 31) ∈ (split_req_coarse T C now).1) ∧
    timedur_standardize ("1y") = .ok ("1Y") ∧
    (∀ (i : ℕ) (e : String × PyDateTime),
      (split_req_coarse T C now).1[i]? = some e → e.2.year = y →
      (split_req_coarse T C now).2[i]? =
        some (tzlocalize y 1 1, tzmax (y + 1) 12 31)) := by
  have hfst : (split_req_coarse T C now).1 =
      (sortedSymmDiff T (C.dedup.erase now)).map (fun yr => (("1y"), tzmax yr 12 31)) := rfl
  have hsnd : (split_req_coarse T C now).2 =
      (sortedSymmDiff T (C.dedup.erase now)).map
        (fun yr => (tzlocalize yr 1 1, tzmax (yr + 1) 12 31)) := rfl
  refine ⟨?_, ?_, by decide, ?_⟩
  · rw [hfst, List.filter_map]
    have hcomp : ((fun e : String × PyDateTime => decide (e.2.year = y)) ∘
        (fun yr => ((("1y") : String), tzmax yr 12 31))) = fun yr => decide (yr = y) := rfl
    rw [hcomp, filter_eq_singleton_of_nodup (nodup_sortedSymmDiff _ _) hy]
    rfl
  · rw [hfst]
    exact List.mem_map.mpr ⟨y, hy, rfl⟩
  · intro i e he hyear
    rw [hfst, List.getElem?_map] at he
    rw [hsnd, List.getElem?_map]
    cases hgap : (sortedSymmDiff T (C.dedup.erase now))[i]? with
    | none =>
      rw [hgap] at he
      exact Option.noConfusion he
    | some yr =>
      rw [hgap] at he
      rw [Option.map_some'] at he
      obtain rfl := Option.some.inj he
      have hyr : yr = y := hyear
      subst hyr
      rfl

/-- Witness for C2: the amended theorem at gap year 2019 with an empty
cache. -/
theorem c2_coarse_gap_year_subrequests_witness :
    (((split_req_coarse [2019] [] 2026).1.filter
        (fun e => decide (e.2.year = 2019))).length = 1) ∧
    ((("1y"), tzmax 2019 12 31) ∈ (split_req_coarse [2019] [] 2026).1) ∧
    (split_req_coarse [2019] [] 2026).2[0]? =
      some (tzlocalize 2019 1 1, tzmax (2019 + 1) 12 31) := by
  have h := c2_coarse_gap_year_subrequests [2019] [] 2026 2019 (by decide)
  exact ⟨h.1, h.2.1, h.2.2.2 0 ((("1y")), tzmax 2019 12 31) (by decide) rfl⟩

/-- C3 (counterexample).  A coarse request whose single required year is
the current year, with that year already cached: the cached set is a
superset of the required set, yet the planner emits one sub-request —
the current year is dropped from the cached side before the symmetric
difference, so it is always re-downloaded. -/
theorem c3_superset_counterexample :
    (∀ x, x ∈ ([2026] : List ℤ) → x ∈ ([2026] : List ℤ)) ∧
    (query_hist_data_split_req ("1d") [2026] [2026] 2026 [] []).map
      SplitPlan.numSubReqs = .ok 1 := by
  decide

theorem sortedSymmDiff_nil_iff (a b : List ℤ) :
    sortedSymmDiff a b = [] ↔ (∀ x, x ∈ a ↔ x ∈ b) := by
  constructor
  · intro h x
    constructor
    · intro hxa
      by_contra hxb
      have hmem : x ∈ sortedSymmDiff a b := (mem_sortedSymmDiff a b x).mpr (Or.inl ⟨hxa, hxb⟩)
      rw [h] at hmem
      exact List.not_mem_nil x hmem
    · intro hxb
      by_contra hxa
      have hmem : x ∈ sortedSymmDiff a b := (mem_sortedSymmDiff a b x).mpr (Or.inr ⟨hxb, hxa⟩)
      rw [h] at hmem
      exact List.not_mem_nil x hmem
  · exact sortedSymmDiff_eq_nil

theorem groupRuns_ne_nil (l : List ℕ) (d : ℕ) (h : l ≠ []) : groupRuns l d ≠ [] := by
  induction l generalizing d with
  | nil => exact absurd rfl h
  | cons a tl ih =>
    cases tl with
    | nil =>
      intro hc
      rw [groupRuns] at hc
      exact List.noConfusion hc
    | cons b rest =>
      rw [groupRuns]
      by_cases hb : b > a + 1
      · rw [if_pos hb]
        intro hc
        exact List.noConfusion hc
      · rw [if_neg hb]
        exact ih (d + 1) (List.cons_ne_nil b rest)

/-- C3 (amended).  No-op exactly on coverage equality: at coarse
granularity the planner emits zero sub-requests if and only if the
cached year set, with the current year removed, has exactly the same
members as the required year set; at fine granularity it returns zero
sub-requests with no error if and only if the cached date set has
exactly the same members as the required session set.  Superset
coverage is therefore not sufficient for a no-op: in particular a
required current year is always re-requested even when cached. -/
theorem c3_exact_coverage_noop :
    (∀ (T C : List ℤ) (now : ℤ),
      ((split_req_coarse T C now).1 = [] ∧ (split_req_coarse T C now).2 = []) ↔
      (∀ x, x ∈ T ↔ x ∈ C.dedup.erase now)) ∧
    (∀ (trd_days blk_db_dates : List ℤ),
      split_req_fine trd_days blk_db_dates = some ([], []) ↔
      (∀ x, x ∈ trd_days ↔ x ∈ blk_db_dates)) := by
  constructor
  · intro T C now
    have hfst : (split_req_coarse T C now).1 =
        (sortedSymmDiff T (C.dedup.erase now)).map (fun yr => (("1y"), tzmax yr 12 31)) := rfl
    constructor
    · rintro ⟨h1, -⟩
      rw [hfst] at h1
      exact (sortedSymmDiff_nil_iff _ _).mp (List.map_eq_nil_iff.mp h1)
    · intro h
      have hnil : sortedSymmDiff T (C.dedup.erase now) = [] :=
        (sortedSymmDiff_nil_iff _ _).mpr h
      constructor
      · show (sortedSymmDiff T (C.dedup.erase now)).map _ = []
        rw [hnil]
        rfl
      · show (sortedSymmDiff T (C.dedup.erase now)).map _ = []
        rw [hnil]
        rfl
  · intro td bd
    constructor
    · intro heq
      simp only [split_req_fine] at heq
      by_cases hguard :
          (sortedSymmDiff td bd).all (fun d => decide (d ∈ td)) = true
      · rw [if_pos hguard] at heq
        have hpair := Option.some.inj heq
        rw [Prod.ext_iff] at hpair
        have hruns : groupRuns ((sortedSymmDiff td bd).map (fun d => td.indexOf d)) 1 = [] :=
          List.map_eq_nil_iff.mp hpair.1
        have hidx : (sortedSymmDiff td bd).map (fun d => td.indexOf d) = [] := by
          by_contra hc
          exact groupRuns_ne_nil _ 1 hc hruns
        exact (sortedSymmDiff_nil_iff _ _).mp (List.map_eq_nil_iff.mp hidx)
      · rw [if_neg hguard] at heq
        exact Option.noConfusion heq
    · intro h
      have hnil : sortedSymmDiff td bd = [] := (sortedSymmDiff_nil_iff _ _).mpr h
      unfold split_req_fine
      rw [hnil]
      rfl

/-- Witness for C3: both directions of the characterization exercised on
exact coverage at both granularities. -/
theorem c3_exact_coverage_noop_witness :
    (split_req_coarse [2020] [2020] 2027).1 = [] ∧
    split_req_fine [5] [5] = some ([], []) := by
  have h := c3_exact_coverage_noop
  have hco : ∀ x : ℤ, x ∈ ([2020] : List ℤ) ↔ x ∈ ([2020] : List ℤ).dedup.erase 2027 := by
    have he : ([2020] : List ℤ).dedup.erase 2027 = [2020] := by decide
    intro x
    rw [he]
  exact ⟨((h.1 [2020] [2020] 2027).mpr hco).1, (h.2 [5] [5]).mpr (fun x => Iff.rfl)⟩

/-- C7 (counterexample).  A week-granularity BarSize with a cache
configured: the orchestrator does not fall back to a direct fetch; the
planner's `NotImplementedError` propagates out of `get_hist_data`. -/
theorem c7_fallback_counterexample :
    get_hist_data true ("1W") [] [] 2026 [] [] = .error .notImplementedError ∧
    get_hist_data true ("1W") [] [] 2026 [] [] ≠ .ok .direct := by
  decide

/-- C7 (amended).  For seconds, week or month BarSize granularity the
split planner fails with `NotImplementedError` and produces no
sub-requests; the orchestrator falls back to a full-range direct fetch
only for seconds granularity (or when no cache is configured), while for
week and month granularity the planner's error propagates out of
`get_hist_data`. -/
theorem c7_unsupported_granularity (barsize std : String)
    (hstd : timedur_standardize barsize = .ok std)
    (T C : List ℤ) (now : ℤ) (td dd : List ℤ) (has_mysql : Bool) :
    (std.toList.getLast? ∈ [some 's', some 'W', some 'M'] →
      query_hist_data_split_req barsize T C now td dd = .error .notImplementedError) ∧
    (std.toList.getLast? = some 's' →
      get_hist_data has_mysql barsize T C now td dd = .ok .direct) ∧
    (has_mysql = true → (std.toList.getLast? = some 'W' ∨ std.toList.getLast? = some 'M') →
      get_hist_data has_mysql barsize T C now td dd = .error .notImplementedError) := by
  refine ⟨?_, ?_, ?_⟩
  · intro h
    rw [query_split_eq_of_std barsize std hstd T C now td dd, if_pos h]
  · intro h
    cases has_mysql with
    | false => unfold get_hist_data; rw [if_pos rfl]
    | true =>
      rw [get_hist_data_eq_of_std barsize std hstd T C now td dd, if_pos h]
  · intro hmy h
    subst hmy
    rw [get_hist_data_eq_of_std barsize std hstd T C now td dd]
    rw [if_neg (by rcases h with h | h <;> rw [h] <;> simp)]
    rw [query_split_eq_of_std barsize std hstd T C now td dd,
      if_pos (by rcases h with h | h <;> rw [h] <;> simp)]
    rfl

/-- Witness for C7: the amended theorem at a week BarSize with a cache,
and at a seconds BarSize. -/
theorem c7_unsupported_granularity_witness :
    query_hist_data_split_req ("1W") [] [] 2026 [] [] = .error .notImplementedError ∧
    get_hist_data true ("1W") [] [] 2026 [] [] = .error .notImplementedError ∧
    get_hist_data true ("1s") [] [] 2026 [] [] = .ok .direct := by
  have h1 := c7_unsupported_granularity ("1W") ("1W") (by decide) [] [] 2026 [] [] true
  have h2 := c7_unsupported_granularity ("1s") ("1s") (by decide) [] [] 2026 [] [] true
  exact ⟨h1.1 (by decide), h1.2.2 rfl (by decide), h2.2.1 (by decide)⟩

theorem timedur_isOk_iff (s : String) :
    (timedur_standardize s).isOk = true ↔
      (hasDigit s = true ∧ code_recognized_unit s) := by
  cases hfd : firstDigitRun s.toList with
  | none =>
    rw [timedur_eq_of_no_digit hfd]
    constructor
    · intro h
      exact Bool.noConfusion h
    · rintro ⟨hd, -⟩
      rw [not_hasDigit_of_firstDigitRun_none hfd] at hd
      exact Bool.noConfusion hd
  | some num =>
    have hdig : hasDigit s = true := hasDigit_of_firstDigitRun hfd
    rcases hlet : s.toList.filter Char.isAlpha with _ | ⟨c, _ | ⟨d, rest⟩⟩
    · rw [timedur_eq_verbose_nil hfd hlet]
      cases hfind : unit_map.find? (fun p => containsRun p.1 s.toList) with
      | none =>
        constructor
        · intro h
          exact Bool.noConfusion h
        · rintro ⟨-, hrec⟩
          exfalso
          rcases hrec with ⟨e, he, -⟩ | ⟨-, p, hp, hcr⟩
          · rw [hlet] at he
            exact List.noConfusion he
          · have hsome : (unit_map.find? (fun p => containsRun p.1 s.toList)).isSome = true :=
              List.find?_isSome.mpr ⟨p, hp, hcr⟩
            rw [hfind] at hsome
            exact Bool.noConfusion hsome
      | some pu =>
        constructor
        · rintro -
          refine ⟨hdig, Or.inr ⟨?_, ?_⟩⟩
          · rw [hlet]
            simp
          · have hpred := List.find?_some hfind
            exact ⟨pu, List.mem_of_find?_eq_some hfind, hpred⟩
        · rintro -
          rfl
    · rw [timedur_eq_single_letter hfd hlet]
      by_cases hmem : c.toLower ∈ (['s', 'm', 'h', 'd', 'w', 'y'] : List Char)
      · rw [if_pos hmem]
        constructor
        · rintro -
          exact ⟨hdig, Or.inl ⟨c, hlet, hmem⟩⟩
        · rintro -
          rfl
      · rw [if_neg hmem]
        constructor
        · intro h
          exact Bool.noConfusion h
        · rintro ⟨-, hrec⟩
          exfalso
          rcases hrec with ⟨e, he, hemem⟩ | ⟨hlen, -⟩
          · rw [hlet] at he
            have hce : c = e := (List.cons.inj he).1
            subst hce
            exact hmem hemem
          · rw [hlet] at hlen
            exact hlen rfl
    · rw [timedur_eq_verbose_multi hfd hlet]
      cases hfind : unit_map.find? (fun p => containsRun p.1 s.toList) with
      | none =>
        constructor
        · intro h
          exact Bool.noConfusion h
        · rintro ⟨-, hrec⟩
          exfalso
          rcases hrec with ⟨e, he, -⟩ | ⟨-, p, hp, hcr⟩
          · rw [hlet] at he
            have htail := (List.cons.inj he).2
            exact List.noConfusion htail
          · have hsome : (unit_map.find? (fun p => containsRun p.1 s.toList)).isSome = true :=
              List.find?_isSome.mpr ⟨p, hp, hcr⟩
            rw [hfind] at hsome
            exact Bool.noConfusion hsome
      | some pu =>
        constructor
        · rintro -
          refine ⟨hdig, Or.inr ⟨?_, ?_⟩⟩
          · rw [hlet]
            simp
          · have hpred := List.find?_some hfind
            exact ⟨pu, List.mem_of_find?_eq_some hfind, hpred⟩
        · rintro -
          rfl

theorem timedur_bare_m_rule (num : List Char) (hne : num ≠ [])
    (hdig : ∀ c ∈ num, c.isDigit = true) :
    timedur_standardize (String.mk (num ++ [('m')])) = .ok (String.mk (num ++ [('m')])) ∧
    timedur_standardize (String.mk (num ++ [('M')])) = .ok (String.mk (num ++ [('M')])) := by
  constructor
  · have hfd : firstDigitRun (String.mk (num ++ [('m')])).toList = some num :=
      firstDigitRun_digits_append hne hdig (by decide)
    have hlet : (String.mk (num ++ [('m')])).toList.filter Char.isAlpha = [('m')] :=
      filter_alpha_digits_append num ('m') hdig (by decide)
    rw [timedur_eq_single_letter hfd hlet]
    rw [if_pos (by decide : ('m').toLower ∈ (['s', 'm', 'h', 'd', 'w', 'y'] : List Char))]
    rw [if_neg (by decide : ('m') ∉ (['w', 'W', 'M', 'y', 'Y'] : List Char))]
    have hml : ('m').toLower = ('m') := by decide
    rw [hml]
  · have hfd : firstDigitRun (String.mk (num ++ [('M')])).toList = some num :=
      firstDigitRun_digits_append hne hdig (by decide)
    have hlet : (String.mk (num ++ [('M')])).toList.filter Char.isAlpha = [('M')] :=
      filter_alpha_digits_append num ('M') hdig (by decide)
    rw [timedur_eq_single_letter hfd hlet]
    rw [if_pos (by decide : ('M').toLower ∈ (['s', 'm', 'h', 'd', 'w', 'y'] : List Char))]
    rw [if_pos (by decide : ('M') ∈ (['w', 'W', 'M', 'y', 'Y'] : List Char))]
    have hmu : ('M').toLower.toUpper = ('M') := by decide
    rw [hmu]

/-- C9 (counterexample).  The input `1 Hour` contains a digit and a
recognized unit under the spec's case-insensitive keyword table, yet the
normalizer raises a `TypeError`: the verbose keyword search matches the
lowercase keywords case-sensitively. -/
theorem c9_case_sensitivity_counterexample :
    hasDigit ("1 Hour") = true ∧ spec_recognized_verbose ("1 Hour") = true ∧
    timedur_standardize ("1 Hour") = .error .typeError := by
  decide

/-- C9 (amended).  The duration normalizer fails exactly when the input
has no digit or no unit recognized by the code rules — a single ASCII
letter in s, m, h, d, w, y up to case, or a lowercase verbose keyword
matched case-sensitively as a substring; on the failure side the error
is an index error when no digit exists and a generic or type error
otherwise, not a dedicated exception type.  For every accepted input the
result is the first digit run joined with the canonical unit letter; in
particular a bare `m` after the magnitude means minutes and `M` means
months. -/
theorem c9_normalizer_characterization :
    (∀ s : String, (timedur_standardize s).isOk = true ↔
      (hasDigit s = true ∧ code_recognized_unit s)) ∧
    (∀ num : List Char, num ≠ [] → (∀ c ∈ num, c.isDigit = true) →
      timedur_standardize (String.mk (num ++ [('m')])) = .ok (String.mk (num ++ [('m')])) ∧
      timedur_standardize (String.mk (num ++ [('M')])) = .ok (String.mk (num ++ [('M')]))) :=
  ⟨timedur_isOk_iff, timedur_bare_m_rule⟩

/-- Witness for C9: the characterization at a verbose input and the bare
m/M rule at magnitude 1. -/
theorem c9_normalizer_characterization_witness :
    ((timedur_standardize ("5 min")).isOk = true ↔
      (hasDigit ("5 min") = true ∧ code_recognized_unit ("5 min"))) ∧
    timedur_standardize (String.mk (['1'] ++ [('m')])) = .ok (String.mk (['1'] ++ [('m')])) ∧
    timedur_standardize (String.mk (['1'] ++ [('M')])) = .ok (String.mk (['1'] ++ [('M')])) := by
  have h := c9_normalizer_characterization
  have h2 := h.2 ['1'] (by decide) (by decide)
  exact ⟨h.1 ("5 min"), h2.1, h2.2⟩
